import Mathlib

/-!
Verification development for the `selecta` interactive line-selection tool.

This file embeds the pure computational core of the Python sources
(`selecta/utils.py`, `selecta/matches.py`, `selecta/indexing.py`,
`selecta/ui.py`, `selecta/terminal.py`) as executable Lean definitions and
proves, or refutes, the specified properties about them.

Modelling conventions:
* Python strings are `List Char`; `str.lower()` is modelled on ASCII.
* Python `str.find(sub, start)` is modelled by `pyFind`, returning
  `Option Nat` instead of `-1` for "not found".
* Python dictionaries are association lists in insertion order with
  distinct keys.  (CPython 2.7 iterates dictionaries in hash order; all
  quantified theorems below are stated so that they do not depend on the
  iteration order of the dictionary.)
* Code that can raise is modelled in `Except PyErr`.
* `while` loops are modelled with explicit fuel that provably suffices.
-/

namespace Selecta

/-- Error values for Python code paths that raise. -/
inductive PyErr where
  | unboundLocal : PyErr
deriving DecidableEq, Repr

/-- ASCII `str.lower()` on a single character. -/
def pyLower (c : Char) : Char :=
  if 'A' ≤ c ∧ c ≤ 'Z' then Char.ofNat (c.toNat + 32) else c

/-- ASCII `str.lower()` on a whole string. -/
def pyLowerStr (s : List Char) : List Char := s.map pyLower

/-- Python string comparison `a < b` (lexicographic on character codes). -/
def pyStrLt : List Char → List Char → Bool
  | [], [] => false
  | [], _ :: _ => true
  | _ :: _, [] => false
  | a :: as, b :: bs => if a < b then true else if b < a then false else pyStrLt as bs

/-- Index of the first position of `c` at which `needle` starts, scanning
from the front, or `none`.  Helper for `pyFind`. -/
def findFrom (needle : List Char) (c : List Char) : Option Nat :=
  if needle.isPrefixOf c then some 0
  else
    match c with
    | [] => none
    | _ :: rest => (findFrom needle rest).map (· + 1)

/-- Python `corpus.find(needle, start)`: the least index `i ≥ start` at which
`needle` occurs in `corpus`, or `none` (Python returns `-1`).  As in Python,
a start position beyond the end of the corpus finds nothing, even for an
empty needle. -/
def pyFind (needle corpus : List Char) (start : Nat) : Option Nat :=
  if start ≤ corpus.length then (findFrom needle (corpus.drop start)).map (· + start)
  else none

/-- `needle` occurs in `corpus` at position `i` (`corpus[i : i+len] = needle`). -/
def occursAt (needle corpus : List Char) (i : Nat) : Prop :=
  i + needle.length ≤ corpus.length ∧ (corpus.drop i).take needle.length = needle

instance (needle corpus : List Char) (i : Nat) : Decidable (occursAt needle corpus i) := by
  unfold occursAt; infer_instance

/-- Fuelled loop of `utils.each_index_of_string`: repeatedly `find` from one
past the previous hit.  The fuel used by `each_index_of_string` provably
suffices because hits are strictly increasing and bounded by the corpus
length. -/
def eachIndexFrom : Nat → List Char → List Char → Nat → List Nat
  | 0, _, _, _ => []
  | fuel + 1, needle, corpus, start =>
    match pyFind needle corpus start with
    | none => []
    | some i => i :: eachIndexFrom fuel needle corpus (i + 1)

/-- `utils.each_index_of_string(string, corpus)`: all start indices of
occurrences of `string` in `corpus`, in ascending order, overlapping
occurrences included. -/
def each_index_of_string (needle corpus : List Char) : List Nat :=
  eachIndexFrom (corpus.length + 1) needle corpus 0

/-- One sweep of the merge loop in `matches.canonical_ranges`: `prev` is the
pending range, the list holds the remaining ranges; returns the pass result
and the `changed` flag.  Mirrors the Python loop body: on
`prev_end >= curr_start` the ranges are merged with `prev_end = curr_end`
(note: not the maximum). -/
def sweep : Int × Int → List (Int × Int) → List (Int × Int) × Bool
  | prev, [] => ([prev], false)
  | prev, curr :: rest =>
    if curr.1 ≤ prev.2 then
      ((sweep (prev.1, curr.2) rest).1, true)
    else
      let r := sweep curr rest
      (prev :: r.1, r.2)

/-- The `while changed` loop of `matches.canonical_ranges`, with fuel.
Each pass that reports a change strictly shrinks the list, so the fuel
passed by `canonical_ranges` (the length of the list) is never exhausted. -/
def canonLoop : Nat → List (Int × Int) → List (Int × Int)
  | 0, result => result
  | fuel + 1, result =>
    if result.length < 2 then result
    else
      match result with
      | [] => []
      | prev :: rest =>
        let s := sweep prev rest
        if s.2 then canonLoop fuel s.1 else s.1

/-- Python `sorted` comparison on `(start, end)` pairs: lexicographic.
`List.insertionSort` with this relation is a stable ascending sort and
hence agrees with Python's `sorted`. -/
def rangeLex (a b : Int × Int) : Prop :=
  a.1 < b.1 ∨ (a.1 = b.1 ∧ a.2 ≤ b.2)

instance : DecidableRel rangeLex := fun a b =>
  inferInstanceAs (Decidable (a.1 < b.1 ∨ (a.1 = b.1 ∧ a.2 ≤ b.2)))

instance : IsTotal (Int × Int) rangeLex :=
  ⟨by intro a b; unfold rangeLex; omega⟩

instance : IsTrans (Int × Int) rangeLex :=
  ⟨by intro a b c; unfold rangeLex; omega⟩

/-- `matches.canonical_ranges(ranges)`. -/
def canonical_ranges (ranges : List (Int × Int)) : List (Int × Int) :=
  if ranges.length < 2 then ranges
  else canonLoop ranges.length (List.insertionSort rangeLex ranges)

/-- Whether the point `x` is covered by at least one half-open range in `rs`. -/
def rangesCover (rs : List (Int × Int)) (x : Int) : Bool :=
  rs.any (fun r => decide (r.1 ≤ x) && decide (x < r.2))

/-- `matches.Match`: the result value of a search.  The matched objects of
this development are the displayed strings themselves (the default
`displayer=str` configuration), so `matched_object` is a `List Char`. -/
structure Match where
  matched_object : List Char
  matched_string : List Char
  score : Int
  substrings : List (Int × Int)
deriving DecidableEq, Repr

/-- `Match.__lt__`: `self.score < other.score or
self.matched_string < other.matched_string` (verbatim from the source,
including the missing equality guard). -/
def match_lt (a b : Match) : Bool :=
  decide (a.score < b.score) || pyStrLt a.matched_string b.matched_string

/-- `Match.canonicalize()`. -/
def matchCanonicalize (m : Match) : Match :=
  { m with substrings := canonical_ranges m.substrings }

/-! ### The substring index (`indexing.SubstringIndex`) -/

/-- Items are the indexed objects; with the default `displayer=str`
configuration they display as themselves. -/
abbrev Item := List Char

/-- Value lookup in an association-list dictionary. -/
def dictGet (d : List (Item × Int)) (k : Item) : Option Int :=
  (d.find? (fun e => e.1 == k)).map (·.2)

/-- `result[item] = min(result[item], v)` on a `defaultdict(int)`: a missing
key is created with default `0` before taking the minimum. -/
def dictMinUpdate : List (Item × Int) → Item → Int → List (Item × Int)
  | [], k, v => [(k, min 0 v)]
  | e :: rest, k, v =>
    if e.1 = k then (e.1, min e.2 v) :: rest else e :: dictMinUpdate rest k v

/-- State of a `SubstringIndex`: the case-sensitivity flag and the
token-to-items map (`defaultdict(list)`), in insertion order. -/
structure SubstringIndex where
  case_sensitive : Bool
  tokens_to_items : List (List Char × List Item)

/-- `SubstringIndex._score_items(query)`: for every token containing the
query, record `min(result[item], -index)` for each item of the token. -/
def substring_score_items (m : List (List Char × List Item)) (q : List Char) :
    List (Item × Int) :=
  m.foldl
    (fun result e =>
      match pyFind q e.1 0 with
      | some idx => e.2.foldl (fun r it => dictMinUpdate r it (-(idx : Int))) result
      | none => result)
    []

/-- Python `sorted` comparison used by `_create_matches_from`
(`key=itemgetter(1)` on integer scores). -/
def subScoreLE (a b : Item × Int) : Prop := a.2 ≤ b.2

instance : DecidableRel subScoreLE := fun a b =>
  inferInstanceAs (Decidable (a.2 ≤ b.2))

instance : IsTotal (Item × Int) subScoreLE :=
  ⟨by intro a b; unfold subScoreLE; omega⟩

instance : IsTrans (Item × Int) subScoreLE :=
  ⟨by intro a b c; unfold subScoreLE; omega⟩

/-- `SubstringIndex._create_matches_from`: sort the scored items ascending by
stored score (Python `sorted` with `key=itemgetter(1)`, a stable sort;
`List.insertionSort` is also stable), then build a `Match` for each with
`score = -stored_score` and highlight every occurrence of the query in the
(lower-cased, when case-insensitive) display string. -/
def substring_create_matches (case_sensitive : Bool) (q : List Char)
    (items_and_scores : List (Item × Int)) : List Match :=
  (List.insertionSort subScoreLE items_and_scores).map
    (fun e =>
      let matched_string := e.1
      let hl := if case_sensitive then matched_string else pyLowerStr matched_string
      { matched_object := e.1
        matched_string := matched_string
        score := -e.2
        substrings :=
          (each_index_of_string q hl).map
            (fun i => ((i : Int), (i : Int) + q.length)) })

/-- `SubstringIndex.search(query)`. -/
def substring_search (idx : SubstringIndex) (query : List Char) : List Match :=
  let q := if idx.case_sensitive then query else pyLowerStr query
  substring_create_matches idx.case_sensitive q (substring_score_items idx.tokens_to_items q)

/-! ### The fuzzy index (`indexing.FuzzyIndex`) -/

/-- `FuzzyIndex._prepare_query(query)`: the lower-cased first character and
the remaining lower-cased characters. -/
def fuzzy_prepare_query (query : List Char) : Option Char × List Char :=
  match query with
  | [] => (none, [])
  | c :: cs => (some (pyLower c), cs.map pyLower)

/-- Loop of `FuzzyIndex._find_end_of_match`.  State: remaining query
characters, current position, accumulated score, whether the last match was
sequential, and the local variable `end` (`none` while still unbound).
Reading `end` after a loop that never ran raises `UnboundLocalError`. -/
def findEndLoop (token : List Char) :
    List Char → Nat → Int → Bool → Option Nat → Except PyErr (Option (Int × Nat))
  | [], _, score, _, endVar =>
    match endVar with
    | none => .error .unboundLocal
    | some e => .ok (some (score, e))
  | ch :: rs, start, score, lastSeq, _ =>
    match pyFind [ch] token (start + 1) with
    | none => .ok none
    | some e =>
      if e = start + 1 then
        if lastSeq then findEndLoop token rs e score true (some e)
        else findEndLoop token rs e (score + 1) true (some e)
      else findEndLoop token rs e (score + ((e : Int) - (start : Int))) false (some e)

/-- `FuzzyIndex._find_end_of_match(rest, token, start)`. -/
def find_end_of_match (rest token : List Char) (start : Nat) :
    Except PyErr (Option (Int × Nat)) :=
  findEndLoop token rest start 1 false none

/-- Loop of `FuzzyIndex._score_token` over the candidate start positions,
keeping the minimum-score match.  The guard mirrors Python's
`if match_end and (best_score is None or score < best_score)`. -/
def scoreTokenLoop (token : List Char) (rest : List Char) :
    List Nat → Option (Int × (Nat × Nat)) → Except PyErr (Option (Int × (Nat × Nat)))
  | [], best => .ok best
  | ms :: more, best =>
    match find_end_of_match rest token ms with
    | .error e => .error e
    | .ok none => scoreTokenLoop token rest more best
    | .ok (some (score, mend)) =>
      if mend ≠ 0 ∧ (best = none ∨ ∀ b ∈ best, score < b.1) then
        scoreTokenLoop token rest more (some (score, (ms, mend + 1)))
      else scoreTokenLoop token rest more best

/-- `FuzzyIndex._score_token(token, prepared_query)`: `none` plays the role
of Python's `(None, None)` result. -/
def fuzzy_score_token (token : List Char) (pq : Option Char × List Char) :
    Except PyErr (Option (Int × (Nat × Nat))) :=
  match pq.1 with
  | none => .ok none
  | some fc => scoreTokenLoop token pq.2 (each_index_of_string [fc] token) none

/-- Value lookup in the fuzzy score dictionary. -/
def fdictGet (d : List (Item × (Int × (Nat × Nat)))) (k : Item) :
    Option (Int × (Nat × Nat)) :=
  (d.find? (fun e => e.1 == k)).map (·.2)

/-- In-place replacement of the value stored for key `k`. -/
def fdictSet : List (Item × (Int × (Nat × Nat))) → Item → Int × (Nat × Nat) →
    List (Item × (Int × (Nat × Nat)))
  | [], _, _ => []
  | e :: rest, k, v => if e.1 = k then (e.1, v) :: rest else e :: fdictSet rest k v

/-- `if item not in result or result[item][0] < score:
result[item] = score, matched_range` — keeps the *highest* score seen for an
item across its tokens. -/
def fuzzyUpdate (d : List (Item × (Int × (Nat × Nat)))) (k : Item)
    (v : Int × (Nat × Nat)) : List (Item × (Int × (Nat × Nat))) :=
  match fdictGet d k with
  | none => d ++ [(k, v)]
  | some old => if old.1 < v.1 then fdictSet d k v else d

/-- State of a `FuzzyIndex`: its token-to-items map. -/
structure FuzzyIndex where
  tokens_to_items : List (List Char × List Item)

/-- Loop of `FuzzyIndex._score_items` over the token map. -/
def fuzzyScoreItemsLoop (pq : Option Char × List Char) :
    List (List Char × List Item) → List (Item × (Int × (Nat × Nat))) →
    Except PyErr (List (Item × (Int × (Nat × Nat))))
  | [], result => .ok result
  | e :: rest, result =>
    match fuzzy_score_token e.1 pq with
    | .error err => .error err
    | .ok none => fuzzyScoreItemsLoop pq rest result
    | .ok (some v) =>
      fuzzyScoreItemsLoop pq rest (e.2.foldl (fun r it => fuzzyUpdate r it v) result)

/-- `FuzzyIndex._score_items(prepared_query)`. -/
def fuzzy_score_items (m : List (List Char × List Item))
    (pq : Option Char × List Char) : Except PyErr (List (Item × (Int × (Nat × Nat)))) :=
  fuzzyScoreItemsLoop pq m []

/-- Python `sorted` comparison for `FuzzyIndex._create_matches_from`
(`key=itemgetter(1)`, tuples compare lexicographically). -/
def fuzzyValLE (a b : Item × (Int × (Nat × Nat))) : Prop :=
  a.2.1 < b.2.1 ∨
    (a.2.1 = b.2.1 ∧
      (a.2.2.1 < b.2.2.1 ∨ (a.2.2.1 = b.2.2.1 ∧ a.2.2.2 ≤ b.2.2.2)))

instance : DecidableRel fuzzyValLE := fun a b =>
  inferInstanceAs (Decidable (a.2.1 < b.2.1 ∨
    (a.2.1 = b.2.1 ∧
      (a.2.2.1 < b.2.2.1 ∨ (a.2.2.1 = b.2.2.1 ∧ a.2.2.2 ≤ b.2.2.2)))))

instance : IsTotal (Item × (Int × (Nat × Nat))) fuzzyValLE :=
  ⟨by intro a b; unfold fuzzyValLE; omega⟩

instance : IsTrans (Item × (Int × (Nat × Nat))) fuzzyValLE :=
  ⟨by intro a b c; unfold fuzzyValLE; omega⟩

/-- Body of `FuzzyIndex._create_matches_from` after sorting: build a `Match`
per item (score passed through as-is) and re-run `_score_token` on the
lower-cased display string to obtain the highlight range. -/
def fuzzyCreateLoop (pq : Option Char × List Char) :
    List (Item × (Int × (Nat × Nat))) → Except PyErr (List Match)
  | [] => .ok []
  | e :: rest =>
    match fuzzy_score_token (pyLowerStr e.1) pq with
    | .error err => .error err
    | .ok r =>
      match fuzzyCreateLoop pq rest with
      | .error err => .error err
      | .ok ms =>
        .ok
          ({ matched_object := e.1
             matched_string := e.1
             score := e.2.1
             substrings :=
               match r with
               | some (_, rg) => [((rg.1 : Int), (rg.2 : Int))]
               | none => [] } :: ms)

/-- `FuzzyIndex._create_matches_from(prepared_query, items_and_scores)`. -/
def fuzzy_create_matches (pq : Option Char × List Char)
    (items_and_scores : List (Item × (Int × (Nat × Nat)))) : Except PyErr (List Match) :=
  fuzzyCreateLoop pq (List.insertionSort fuzzyValLE items_and_scores)

/-- `FuzzyIndex.search(query)`. -/
def fuzzy_search (idx : FuzzyIndex) (query : List Char) : Except PyErr (List Match) :=
  let pq := fuzzy_prepare_query query
  match fuzzy_score_items idx.tokens_to_items pq with
  | .error err => .error err
  | .ok items_and_scores => fuzzy_create_matches pq items_and_scores

/-! ### The smart terminal UI session state (`ui.SmartTerminalUI`) -/

/-- The session state of `SmartTerminalUI` that the invariant claims are
about: the current ranked matches, the selected index (`None` or an `int`,
which in Python may be any integer) and `hit_list_limit`. -/
structure UIState where
  best_matches : List Match
  selected_index : Option Int
  hit_list_limit : Nat
deriving DecidableEq, Repr

/-- `SmartTerminalUI.num_visible_matches`. -/
def num_visible_matches (st : UIState) : Nat :=
  min st.best_matches.length st.hit_list_limit

/-- `SmartTerminalUI._fix_selected_index`: clear the selection when there are
no matches, otherwise clamp it with
`max(0, min(self._selected_index, self.num_visible_matches))` (verbatim:
the upper clamp is `num_visible_matches`, not `num_visible_matches - 1`). -/
def fix_selected_index (st : UIState) : UIState :=
  if st.best_matches = [] then { st with selected_index := none }
  else
    match st.selected_index with
    | none => st
    | some i =>
      { st with selected_index := some (max 0 (min i (num_visible_matches st : Int))) }

/-- The state mutation performed by `SmartTerminalUI.refresh` (triggered by
every query mutation): store the fresh search results, select index 0 when
results are present and nothing was selected, and re-clamp. -/
def ui_refresh_state (results : List Match) (st : UIState) : UIState :=
  let st1 := { st with best_matches := results }
  let st2 :=
    if results ≠ [] ∧ st1.selected_index = none then
      { st1 with selected_index := some 0 }
    else st1
  fix_selected_index st2

/-- The selected-index invariant stated by the specification:
when present, `0 ≤ index < min(len(matches), hit_list_limit)`. -/
def ui_invariant (st : UIState) : Prop :=
  ∀ i, st.selected_index = some i → 0 ≤ i ∧ i < (num_visible_matches st : Int)

instance (st : UIState) : Decidable (ui_invariant st) := by
  unfold ui_invariant
  cases st.selected_index <;> simp <;> infer_instance

/-! ### Terminal template rendering (`terminal.Terminal.render`) -/

/-- Identifier start character of Python's `string.Template` pattern
(`[_a-z]` with `IGNORECASE`). -/
def isIdStart (c : Char) : Bool :=
  c = '_' || ('a' ≤ c && c ≤ 'z') || ('A' ≤ c && c ≤ 'Z')

/-- Identifier continuation character (`[_a-z0-9]` with `IGNORECASE`). -/
def isIdChar (c : Char) : Bool := isIdStart c || ('0' ≤ c && c ≤ '9')

/-- Greedily split off identifier continuation characters. -/
def splitIdent : List Char → List Char × List Char
  | [] => ([], [])
  | c :: cs =>
    if isIdChar c then
      let p := splitIdent cs
      (c :: p.1, p.2)
    else ([], c :: cs)

/-- Greedily split off a full identifier (start character then continuation
characters); returns `([], input)` when the input does not start with an
identifier. -/
def splitIdentStart (l : List Char) : List Char × List Char :=
  match l with
  | [] => ([], [])
  | c :: cs =>
    if isIdStart c then
      let p := splitIdent cs
      (c :: p.1, p.2)
    else ([], l)

/-- Lookup of a token name in a control-sequence table. -/
def tableGet (table : List (List Char × List Char)) (k : List Char) :
    Option (List Char) :=
  (table.find? (fun e => e.1 == k)).map (·.2)

/-- Python `string.Template(template).safe_substitute(table)`: replace
`$$` by `$`, `$name` and `${name}` by the table entry when the name is
present and leave them verbatim otherwise, and leave an unmatchable `$`
in place.  Never fails. -/
def safeSubstitute (table : List (List Char × List Char)) : List Char → List Char
  | [] => []
  | c :: rest =>
    if c = '$' then
      match hr : rest with
      | [] => ['$']
      | c2 :: rs =>
        if c2 = '$' then '$' :: safeSubstitute table rs
        else if c2 = '{' then
          let p := splitIdentStart rs
          if p.1 = [] then '$' :: safeSubstitute table rest
          else
            match hp : p.2 with
            | '}' :: rs2 =>
              (tableGet table p.1).getD ('$' :: '{' :: (p.1 ++ ['}'])) ++
                safeSubstitute table rs2
            | _ => '$' :: safeSubstitute table rest
        else if isIdStart c2 then
          let p := splitIdentStart rest
          (tableGet table p.1).getD ('$' :: p.1) ++ safeSubstitute table p.2
        else '$' :: safeSubstitute table rest
    else c :: safeSubstitute table rest
termination_by l => l.length
decreasing_by
  all_goals
    have hsplit : ∀ l : List Char, (splitIdent l).2.length ≤ l.length := by
      intro l
      induction l with
      | nil => simp [splitIdent]
      | cons x xs ih =>
        simp only [splitIdent]
        by_cases hx : isIdChar x = true
        · simp [hx]; omega
        · simp [hx]
    have hstart : ∀ l : List Char, (splitIdentStart l).2.length ≤ l.length := by
      intro l
      cases l with
      | nil => simp [splitIdentStart]
      | cons x xs =>
        simp only [splitIdentStart]
        by_cases hx : isIdStart x = true
        · have := hsplit xs
          simp [hx]; omega
        · simp [hx]
    simp_wf
  all_goals try subst hr
  all_goals try simp only [List.length_cons]
  all_goals try omega
  · have h1 := hstart rs
    rw [hp] at h1
    simp only [List.length_cons] at h1
    omega
  · have h2 := hstart (c2 :: rs)
    simp only [List.length_cons] at h2
    omega

/-- The token names of `Terminal._create_empty_control_sequences` plus the
color names of `Terminal._COLORS` with their `FG_`/`BG_` variants. -/
def terminalColorNames : List (List Char) :=
  [("BLACK").toList, ("BLUE").toList, ("GREEN").toList, ("CYAN").toList,
   ("RED").toList, ("MAGENTA").toList, ("YELLOW").toList, ("WHITE").toList]

/-- The key set of the empty control-sequence table built by
`Terminal._create_empty_control_sequences`. -/
def terminalTokenNames : List (List Char) :=
  [("BLINK").toList, ("BOLD").toList, ("DIM").toList, ("NORMAL").toList,
   ("REVERSE").toList, ("UNDERLINE").toList, ("UP").toList, ("DOWN").toList,
   ("LEFT").toList, ("RIGHT").toList, ("BOL").toList, ("EOL").toList,
   ("CLEAR_BOL").toList, ("CLEAR_EOL").toList, ("CLEAR_EOS").toList,
   ("CLEAR_SCREEN").toList, ("HIDE_CURSOR").toList, ("SHOW_CURSOR").toList] ++
  terminalColorNames ++
  terminalColorNames.map (fun c => 'F' :: 'G' :: '_' :: c) ++
  terminalColorNames.map (fun c => 'B' :: 'G' :: '_' :: c)

/-- `Terminal._create_empty_control_sequences()`: every supported token maps
to the empty string.  This is the resolved table of the `DumbTerminal`
backend after `init()`. -/
def empty_control_sequences : List (List Char × List Char) :=
  terminalTokenNames.map (fun k => (k, ([] : List Char)))

/-- `Terminal.render(template)` over a resolved control-sequence table. -/
def terminal_render (table : List (List Char × List Char)) (template : List Char) :
    List Char :=
  safeSubstitute table template

/-- The query actually used internally by `SubstringIndex.search`
(lower-cased when the index is case-insensitive). -/
def subProcQuery (idx : SubstringIndex) (query : List Char) : List Char :=
  if idx.case_sensitive then query else pyLowerStr query

/-- The first-occurrence offsets of the query in the tokens of a given item:
one entry per token of the map that both lists the item and contains the
query. -/
def subOffsets (m : List (List Char × List Item)) (q : List Char) (it : Item) :
    List Nat :=
  m.filterMap (fun e => if it ∈ e.2 then pyFind q e.1 0 else none)

/-- A template segment: literal text, a `$name` placeholder, or a
`${name}` placeholder. -/
inductive TmplSeg where
  | lit : List Char → TmplSeg
  | tok : List Char → TmplSeg
  | btok : List Char → TmplSeg
deriving DecidableEq, Repr

/-- The textual form of a template segment. -/
def segSource : TmplSeg → List Char
  | .lit s => s
  | .tok n => '$' :: n
  | .btok n => '$' :: '{' :: (n ++ ['}'])

/-- What `safe_substitute` produces for one segment: table entries replace
known placeholders, unknown placeholders stay verbatim. -/
def segRender (table : List (List Char × List Char)) : TmplSeg → List Char
  | .lit s => s
  | .tok n => (tableGet table n).getD ('$' :: n)
  | .btok n => (tableGet table n).getD ('$' :: '{' :: (n ++ ['}']))

/-- Concatenation of a list of strings. -/
def catLists (ls : List (List Char)) : List Char :=
  ls.foldr (fun a b => a ++ b) []

/-- The template described by a list of segments. -/
def tmplSource (segs : List TmplSeg) : List Char :=
  catLists (segs.map segSource)

/-- The rendering of a list of segments against a table. -/
def tmplRender (table : List (List Char × List Char)) (segs : List TmplSeg) :
    List Char :=
  catLists (segs.map (segRender table))

/-- A valid `string.Template` identifier. -/
def validName : List Char → Bool
  | [] => false
  | c :: cs => isIdStart c && cs.all isIdChar

/-- Well-formedness of a single segment: literals are nonempty and contain
no `$`, placeholder names are valid identifiers. -/
def segOk : TmplSeg → Bool
  | .lit s => !s.isEmpty && s.all (fun ch => ch ≠ '$')
  | .tok n => validName n
  | .btok n => validName n

/-- Adjacency condition: an unbraced placeholder must not be followed
directly by an identifier character (which the scanner would absorb into
the name). -/
def segPairOk : TmplSeg → TmplSeg → Bool
  | .tok _, .lit s =>
    match s with
    | [] => true
    | c :: _ => !isIdChar c
  | _, _ => true

/-- Adjacency condition along a whole segment list. -/
def segsSepOk : List TmplSeg → Bool
  | [] => true
  | [_] => true
  | a :: b :: rest => segPairOk a b && segsSepOk (b :: rest)

/-- Well-formedness of a segment list. -/
def segsOk (segs : List TmplSeg) : Bool :=
  segs.all segOk && segsSepOk segs

/-! ## Theorems -/

/-- C1.  The claim states that `canonical_ranges` preserves the union of
covered positions.  It does not: merging `(0, 10)` with the nested range
`(2, 3)` sets the merged end to the *current* range's end (`prev_end =
curr_end` instead of a maximum), so the result `[(0, 3)]` no longer covers
position `5`, contradicting the function's own docstring ("x will be
included in one of the returned ranges if and only if x was included in at
least one of the input ranges"). -/
theorem c1_canonicalize_loses_coverage :
    canonical_ranges [(0, 10), (2, 3)] = [(0, 3)] ∧
    rangesCover [(0, 10), (2, 3)] 5 = true ∧
    rangesCover (canonical_ranges [(0, 10), (2, 3)]) 5 = false := by
  decide

/-- C4.  `Match.__lt__` is `score < score or string < string`, with no
equality guard on the score, so it is not the lexicographic order on
`(cost, display_string)` and not a strict total order: for the matches
`a = (score 0, "b")` and `b = (score 1, "a")` both `a < b` and `b < a`
hold although the two matches are not equal. -/
theorem c4_match_lt_not_strict_order :
    match_lt ⟨[], ['b'], 0, []⟩ ⟨[], ['a'], 1, []⟩ = true ∧
    match_lt ⟨[], ['a'], 1, []⟩ ⟨[], ['b'], 0, []⟩ = true ∧
    ¬((0 : Int) = 1 ∧ (['b'] : List Char) = ['a']) := by
  decide

/-- C6.  `FuzzyIndex.search` does not return normally on every query: for a
single-character query whose character occurs in some token,
`_find_end_of_match` is called with an empty `rest`, its loop never runs,
and the trailing `return score, end` reads the never-assigned local `end`,
raising `UnboundLocalError`. -/
theorem c6_fuzzy_search_raises_on_single_char_query :
    fuzzy_search ⟨[(['a'], [['a']])]⟩ ['a'] = .error .unboundLocal := rfl

/-- C8 counterexample.  `canonical_ranges` is not idempotent on arbitrary
`(start, end)` pairs: on `[(5, 2), (5, 6), (6, 1)]` one application yields
`[(5, 2), (5, 1)]` (the end-shrinking merge makes the intermediate list
unsorted), and a second application re-sorts it to `[(5, 1), (5, 2)]`. -/
theorem c8_canonicalize_not_idempotent_counterexample :
    canonical_ranges (canonical_ranges [(5, 2), (5, 6), (6, 1)]) ≠
      canonical_ranges [(5, 2), (5, 6), (6, 1)] := by
  decide

/-- C2 counterexample.  For an item with tokens `"ab"` and `"xab"` and the
query `"ab"`, the first-occurrence offsets of the matching tokens are
`[0, 1]`, so the claimed cost (the minimum) is `0`; the returned match has
cost `1` (the maximum) because `_score_items` accumulates
`min(result[item], -index)` and the final score is negated. -/
theorem c2_substring_cost_counterexample :
    substring_search ⟨true, [(['a', 'b'], [['x']]), (['x', 'a', 'b'], [['x']])]⟩
        ['a', 'b'] = [⟨['x'], ['x'], 1, []⟩] ∧
    subOffsets [(['a', 'b'], [['x']]), (['x', 'a', 'b'], [['x']])] ['a', 'b'] ['x'] =
      [0, 1] ∧
    (1 : Int) ≠ 0 := by
  decide

/-- C3 counterexample.  For items `"ab"` (match offset 0) and `"cab"`
(match offset 1) and query `"ab"`, `SubstringIndex.search` returns the
matches with costs `[1, 0]`: the list is sorted ascending by the *stored*
score `-offset`, hence descending by cost, so it is not sorted ascending by
cost. -/
theorem c3_search_order_counterexample :
    (substring_search
        ⟨true, [(['a', 'b'], [['a', 'b']]), (['c', 'a', 'b'], [['c', 'a', 'b']])]⟩
        ['a', 'b']).map Match.score = [1, 0] ∧
    ¬ List.Pairwise (fun a b => a.score ≤ b.score)
        (substring_search
          ⟨true, [(['a', 'b'], [['a', 'b']]), (['c', 'a', 'b'], [['c', 'a', 'b']])]⟩
          ['a', 'b']) := by
  decide

/-- C5.  The re-clamping performed on every refresh does not restore the
claimed invariant `0 ≤ index < min(len(matches), hit_list_limit)`:
`_fix_selected_index` clamps with `min(index, num_visible_matches)` instead
of `min(index, num_visible_matches - 1)`.  Starting from a valid state with
5 matches and selected index 4, a query mutation whose fresh search returns
2 matches leaves the selected index at `2 = min(2, 9)`, outside the valid
range (and `selected_item` would raise `IndexError`). -/
theorem c5_fix_selected_index_breaks_invariant :
    ui_invariant ⟨List.replicate 5 ⟨[], [], 0, []⟩, some 4, 9⟩ ∧
    (ui_refresh_state (List.replicate 2 ⟨[], [], 0, []⟩)
        ⟨List.replicate 5 ⟨[], [], 0, []⟩, some 4, 9⟩).selected_index = some 2 ∧
    ¬ ui_invariant
        (ui_refresh_state (List.replicate 2 ⟨[], [], 0, []⟩)
          ⟨List.replicate 5 ⟨[], [], 0, []⟩, some 4, 9⟩) := by
  refine ⟨?_, by decide, ?_⟩
  · intro i hi
    simp only [Option.some.injEq] at hi
    subst hi
    constructor <;> decide
  · intro h
    have h2 := h 2 (by decide)
    have : num_visible_matches
        (ui_refresh_state (List.replicate 2 ⟨[], [], 0, []⟩)
          ⟨List.replicate 5 ⟨[], [], 0, []⟩, some 4, 9⟩) = 2 := by decide
    rw [this] at h2
    omega

/-! ### Lemmas about `findFrom`, `pyFind` and `each_index_of_string` -/

theorem findFrom_some {needle c : List Char} {i : Nat} (h : findFrom needle c = some i) :
    needle.isPrefixOf (c.drop i) = true ∧ i ≤ c.length := by
  induction c generalizing i with
  | nil =>
    rw [findFrom] at h
    by_cases hp : needle.isPrefixOf [] = true
    · simp [hp] at h
      subst h
      exact ⟨hp, Nat.le_refl _⟩
    · simp [hp] at h
  | cons x rest ih =>
    rw [findFrom] at h
    by_cases hp : needle.isPrefixOf (x :: rest) = true
    · simp [hp] at h
      subst h
      exact ⟨hp, Nat.zero_le _⟩
    · simp [hp, Option.map_eq_some'] at h
      obtain ⟨j, hj, hji⟩ := h
      obtain ⟨h1, h2⟩ := ih hj
      subst hji
      refine ⟨?_, by simpa using Nat.succ_le_succ h2⟩
      simpa [List.drop_succ_cons] using h1

theorem findFrom_least {needle c : List Char} {i : Nat} (h : findFrom needle c = some i) :
    ∀ j, j < i → needle.isPrefixOf (c.drop j) = false := by
  induction c generalizing i with
  | nil =>
    rw [findFrom] at h
    by_cases hp : needle.isPrefixOf [] = true
    · simp [hp] at h
      subst h
      intro j hj
      omega
    · simp [hp] at h
  | cons x rest ih =>
    rw [findFrom] at h
    by_cases hp : needle.isPrefixOf (x :: rest) = true
    · simp [hp] at h
      subst h
      intro j hj
      omega
    · simp [hp, Option.map_eq_some'] at h
      obtain ⟨j0, hj0, hji⟩ := h
      subst hji
      intro j hj
      cases j with
      | zero => simpa using Bool.eq_false_iff.mpr (fun hc => hp hc)
      | succ k =>
        have := ih hj0 k (by omega)
        simpa [List.drop_succ_cons] using this

theorem findFrom_none {needle c : List Char} (h : findFrom needle c = none) :
    ∀ j, needle.isPrefixOf (c.drop j) = false := by
  induction c with
  | nil =>
    rw [findFrom] at h
    by_cases hp : needle.isPrefixOf [] = true
    · simp [hp] at h
    · intro j
      simpa [List.drop_nil] using Bool.eq_false_iff.mpr (fun hc => hp hc)
  | cons x rest ih =>
    rw [findFrom] at h
    by_cases hp : needle.isPrefixOf (x :: rest) = true
    · simp [hp] at h
    · simp [hp] at h
      intro j
      cases j with
      | zero => simpa using Bool.eq_false_iff.mpr (fun hc => hp hc)
      | succ k => simpa [List.drop_succ_cons] using ih h k

theorem pyFind_some {needle corpus : List Char} {s i : Nat}
    (h : pyFind needle corpus s = some i) :
    s ≤ i ∧ i ≤ corpus.length ∧ needle.isPrefixOf (corpus.drop i) = true := by
  rw [pyFind] at h
  by_cases hs : s ≤ corpus.length
  · simp only [if_pos hs, Option.map_eq_some'] at h
    obtain ⟨i0, hi0, hii⟩ := h
    obtain ⟨h1, h2⟩ := findFrom_some hi0
    subst hii
    have hlen : (corpus.drop s).length = corpus.length - s := List.length_drop s corpus
    refine ⟨by omega, by omega, ?_⟩
    rw [List.drop_drop] at h1
    rwa [Nat.add_comm s i0] at h1
  · simp [hs] at h

theorem pyFind_least {needle corpus : List Char} {s i : Nat}
    (h : pyFind needle corpus s = some i) :
    ∀ j, s ≤ j → j < i → needle.isPrefixOf (corpus.drop j) = false := by
  rw [pyFind] at h
  by_cases hs : s ≤ corpus.length
  · simp only [if_pos hs, Option.map_eq_some'] at h
    obtain ⟨i0, hi0, hii⟩ := h
    subst hii
    intro j hsj hj
    have := findFrom_least hi0 (j - s) (by omega)
    rw [List.drop_drop] at this
    have hj' : s + (j - s) = j := by omega
    rwa [hj'] at this
  · simp [hs] at h

theorem pyFind_none {needle corpus : List Char} {s : Nat}
    (h : pyFind needle corpus s = none) :
    ∀ j, s ≤ j → j ≤ corpus.length → needle.isPrefixOf (corpus.drop j) = false := by
  rw [pyFind] at h
  by_cases hs : s ≤ corpus.length
  · simp only [if_pos hs, Option.map_eq_none'] at h
    intro j hsj _
    have := findFrom_none h (j - s)
    rw [List.drop_drop] at this
    have hj' : s + (j - s) = j := by omega
    rwa [hj'] at this
  · intro j hsj hj
    omega

theorem occursAt_iff {needle c : List Char} {i : Nat} :
    occursAt needle c i ↔ (i ≤ c.length ∧ needle.isPrefixOf (c.drop i) = true) := by
  rw [occursAt]
  constructor
  · rintro ⟨h1, h2⟩
    refine ⟨by omega, ?_⟩
    rw [List.isPrefixOf_iff_prefix, List.prefix_iff_eq_take]
    exact h2.symm
  · rintro ⟨h1, h2⟩
    rw [List.isPrefixOf_iff_prefix] at h2
    have hlen := h2.length_le
    rw [List.length_drop] at hlen
    refine ⟨by omega, ?_⟩
    exact ((List.prefix_iff_eq_take).1 h2).symm

theorem eachIndexFrom_spec (needle corpus : List Char) :
    ∀ fuel s, corpus.length + 1 ≤ fuel + s →
      (∀ i, i ∈ eachIndexFrom fuel needle corpus s ↔ (s ≤ i ∧ occursAt needle corpus i)) ∧
      (∀ i ∈ eachIndexFrom fuel needle corpus s, s ≤ i) ∧
      List.Chain' (· < ·) (eachIndexFrom fuel needle corpus s) := by
  intro fuel
  induction fuel with
  | zero =>
    intro s hs
    refine ⟨?_, by simp [eachIndexFrom], by simp [eachIndexFrom]⟩
    intro i
    simp only [eachIndexFrom, List.not_mem_nil, false_iff]
    rintro ⟨hsi, hocc, -⟩
    omega
  | succ fuel ih =>
    intro s hs
    cases hfind : pyFind needle corpus s with
    | none =>
      refine ⟨?_, by simp [eachIndexFrom, hfind], by simp [eachIndexFrom, hfind]⟩
      intro i
      simp only [eachIndexFrom, hfind, List.not_mem_nil, false_iff]
      rintro ⟨hsi, hocc⟩
      rw [occursAt_iff] at hocc
      have := pyFind_none hfind i hsi hocc.1
      rw [this] at hocc
      exact absurd hocc.2 (by simp)
    | some i0 =>
      obtain ⟨hsi0, hi0len, hi0pre⟩ := pyFind_some hfind
      obtain ⟨ihMem, ihLB, ihChain⟩ := ih (i0 + 1) (by omega)
      have hmem : ∀ i, i ∈ eachIndexFrom (fuel + 1) needle corpus s ↔
          (s ≤ i ∧ occursAt needle corpus i) := by
        intro i
        simp only [eachIndexFrom, hfind, List.mem_cons]
        constructor
        · rintro (rfl | hi)
          · exact ⟨hsi0, occursAt_iff.mpr ⟨hi0len, hi0pre⟩⟩
          · obtain ⟨h1, h2⟩ := (ihMem i).1 hi
            exact ⟨by omega, h2⟩
        · rintro ⟨hsi, hocc⟩
          rcases Nat.lt_or_ge i i0 with hlt | hge
          · have := pyFind_least hfind i hsi hlt
            rw [occursAt_iff] at hocc
            rw [this] at hocc
            exact absurd hocc.2 (by simp)
          · rcases Nat.eq_or_lt_of_le hge with rfl | hgt
            · exact Or.inl rfl
            · exact Or.inr ((ihMem i).2 ⟨by omega, hocc⟩)
      refine ⟨hmem, ?_, ?_⟩
      · intro i hi
        simp only [eachIndexFrom, hfind, List.mem_cons] at hi
        rcases hi with rfl | hi
        · exact hsi0
        · have := ihLB i hi
          omega
      · simp only [eachIndexFrom, hfind]
        rw [List.chain'_cons']
        refine ⟨?_, ihChain⟩
        intro y hy
        have hmem2 : y ∈ eachIndexFrom fuel needle corpus (i0 + 1) :=
          List.mem_of_mem_head? hy
        have := ihLB y hmem2
        omega

theorem pyFind_nil_needle (c : List Char) (s : Nat) :
    pyFind [] c s = if s ≤ c.length then some s else none := by
  rw [pyFind]
  have h0 : findFrom [] (c.drop s) = some 0 := by
    cases hd : c.drop s <;> simp [findFrom, List.isPrefixOf]
  by_cases hs : s ≤ c.length
  · simp [hs, h0]
  · simp [hs]

theorem eachIndexFrom_nil_needle (corpus : List Char) :
    ∀ fuel s, corpus.length + 1 ≤ fuel + s →
      eachIndexFrom fuel [] corpus s = List.range' s (corpus.length + 1 - s) := by
  intro fuel
  induction fuel with
  | zero =>
    intro s hs
    have : corpus.length + 1 - s = 0 := by omega
    simp [eachIndexFrom, this]
  | succ fuel ih =>
    intro s hs
    rw [eachIndexFrom, pyFind_nil_needle]
    by_cases hsl : s ≤ corpus.length
    · rw [if_pos hsl]
      show s :: eachIndexFrom fuel [] corpus (s + 1) = _
      rw [ih (s + 1) (by omega)]
      have h1 : corpus.length + 1 - s = (corpus.length + 1 - (s + 1)) + 1 := by omega
      rw [h1, List.range'_succ]
    · rw [if_neg hsl]
      have : corpus.length + 1 - s = 0 := by omega
      simp [this]

/-- C7.  `each_index_of_string(s, corpus)` yields exactly the start indices
at which `s` occurs in `corpus`, in strictly ascending order (overlapping
occurrences included); for `s = ""` it yields the `len(corpus)+1` indices
`0 .. len(corpus)`; for `corpus = ""` and non-empty `s` it yields
nothing. -/
theorem c7_each_index_of_string_spec (needle corpus : List Char) :
    (∀ i, i ∈ each_index_of_string needle corpus ↔ occursAt needle corpus i) ∧
    List.Chain' (· < ·) (each_index_of_string needle corpus) ∧
    (needle = [] → each_index_of_string needle corpus = List.range (corpus.length + 1)) ∧
    (corpus = [] → needle ≠ [] → each_index_of_string needle corpus = []) := by
  obtain ⟨hmem, hlb, hchain⟩ :=
    eachIndexFrom_spec needle corpus (corpus.length + 1) 0 (by omega)
  refine ⟨?_, hchain, ?_, ?_⟩
  · intro i
    rw [each_index_of_string, hmem i]
    simp
  · rintro rfl
    rw [each_index_of_string, eachIndexFrom_nil_needle corpus (corpus.length + 1) 0 (by omega)]
    simp [List.range_eq_range']
  · rintro rfl hne
    rw [each_index_of_string]
    rw [eachIndexFrom]
    have : pyFind needle [] 0 = none := by
      rw [pyFind]
      cases needle with
      | nil => exact absurd rfl hne
      | cons x xs => simp [findFrom, List.isPrefixOf]
    rw [this]

/-- Witness for C7 at concrete inputs. -/
theorem c7_each_index_of_string_spec_witness :
    occursAt ['a'] ['b', 'a'] 1 ∧ each_index_of_string ['a'] [] = [] :=
  ⟨((c7_each_index_of_string_spec ['a'] ['b', 'a']).1 1).mp (by decide),
   (c7_each_index_of_string_spec ['a'] []).2.2.2 rfl (by decide)⟩

/-! ### Lemmas about `sweep`, `canonLoop` and `canonical_ranges` -/

theorem sweep_length_le (p : Int × Int) (l : List (Int × Int)) :
    (sweep p l).1.length ≤ l.length + 1 := by
  induction l generalizing p with
  | nil => simp [sweep]
  | cons c rest ih =>
    rw [sweep]
    by_cases hm : c.1 ≤ p.2
    · simp only [if_pos hm]
      have := ih (p.1, c.2)
      simpa using Nat.le_succ_of_le this
    · simp only [if_neg hm, List.length_cons]
      have := ih c
      simpa using this

theorem sweep_changed_length (p : Int × Int) (l : List (Int × Int)) :
    (sweep p l).2 = true → (sweep p l).1.length ≤ l.length := by
  induction l generalizing p with
  | nil => simp [sweep]
  | cons c rest ih =>
    rw [sweep]
    by_cases hm : c.1 ≤ p.2
    · simp only [if_pos hm]
      intro _
      have := sweep_length_le (p.1, c.2) rest
      simpa using this
    · simp only [if_neg hm, List.length_cons]
      intro hch
      have := ih c hch
      simpa using Nat.succ_le_succ this

theorem sweep_unchanged (p : Int × Int) (l : List (Int × Int)) :
    (sweep p l).2 = false →
      (sweep p l).1 = p :: l ∧
      List.Chain' (fun a b : Int × Int => a.2 < b.1) (p :: l) := by
  induction l generalizing p with
  | nil => simp [sweep]
  | cons c rest ih =>
    rw [sweep]
    by_cases hm : c.1 ≤ p.2
    · simp [if_pos hm]
    · simp only [if_neg hm]
      intro hch
      obtain ⟨h1, h2⟩ := ih c hch
      refine ⟨by rw [h1], ?_⟩
      rw [List.chain'_cons]
      exact ⟨by omega, h2⟩

theorem sweep_nomerge (p : Int × Int) (l : List (Int × Int))
    (h : List.Chain' (fun a b : Int × Int => a.2 < b.1) (p :: l)) :
    sweep p l = (p :: l, false) := by
  induction l generalizing p with
  | nil => simp [sweep]
  | cons c rest ih =>
    rw [List.chain'_cons] at h
    rw [sweep]
    have hm : ¬ c.1 ≤ p.2 := by omega
    simp only [if_neg hm]
    rw [ih c h.2]

theorem sweep_inv (l : List (Int × Int)) (p : Int × Int)
    (hwf : ∀ r ∈ p :: l, r.1 ≤ r.2)
    (hsorted : List.Pairwise (fun a b : Int × Int => a.1 ≤ b.1) (p :: l)) :
    (∀ r ∈ (sweep p l).1, r.1 ≤ r.2) ∧
    List.Pairwise (fun a b : Int × Int => a.1 ≤ b.1) ((sweep p l).1) ∧
    (∀ r ∈ (sweep p l).1, p.1 ≤ r.1) := by
  induction l generalizing p with
  | nil =>
    simp only [sweep]
    refine ⟨?_, by simp, ?_⟩
    · intro r hr
      simp at hr
      rw [hr]
      exact hwf p (by simp)
    · intro r hr
      simp at hr
      rw [hr]
  | cons c rest ih =>
    rw [List.pairwise_cons] at hsorted
    obtain ⟨hple, hsorted'⟩ := hsorted
    rw [sweep]
    by_cases hm : c.1 ≤ p.2
    · simp only [if_pos hm]
      have hwf' : ∀ r ∈ (p.1, c.2) :: rest, r.1 ≤ r.2 := by
        intro r hr
        rcases List.mem_cons.mp hr with h | h
        · rw [h]
          have h1 : p.1 ≤ c.1 := hple c (by simp)
          have h2 : c.1 ≤ c.2 := hwf c (by simp)
          simpa using le_trans h1 h2
        · exact hwf r (by simp [h])
      have hsorted2 : List.Pairwise (fun a b : Int × Int => a.1 ≤ b.1)
          ((p.1, c.2) :: rest) := by
        rw [List.pairwise_cons]
        constructor
        · intro b hb
          exact hple b (by simp [hb])
        · exact (List.pairwise_cons.mp hsorted').2
      obtain ⟨i1, i2, i3⟩ := ih (p.1, c.2) hwf' hsorted2
      exact ⟨i1, i2, by simpa using i3⟩
    · simp only [if_neg hm]
      have hwf' : ∀ r ∈ c :: rest, r.1 ≤ r.2 := by
        intro r hr
        exact hwf r (by simp [List.mem_cons.mp hr])
      obtain ⟨i1, i2, i3⟩ := ih c hwf' hsorted'
      have hpc : p.1 ≤ c.1 := hple c (by simp)
      refine ⟨?_, ?_, ?_⟩
      · intro r hr
        rcases List.mem_cons.mp hr with h | h
        · rw [h]
          exact hwf p (by simp)
        · exact i1 r h
      · rw [List.pairwise_cons]
        refine ⟨?_, i2⟩
        intro b hb
        exact le_trans hpc (i3 b hb)
      · intro r hr
        rcases List.mem_cons.mp hr with h | h
        · rw [h]
        · exact le_trans hpc (i3 r h)

theorem canonLoop_inv :
    ∀ (fuel : Nat) (l : List (Int × Int)), l.length ≤ fuel →
      (∀ r ∈ l, r.1 ≤ r.2) →
      List.Pairwise (fun a b : Int × Int => a.1 ≤ b.1) l →
      (∀ r ∈ canonLoop fuel l, r.1 ≤ r.2) ∧
      List.Pairwise (fun a b : Int × Int => a.1 ≤ b.1) (canonLoop fuel l) ∧
      ((canonLoop fuel l).length < 2 ∨
        List.Chain' (fun a b : Int × Int => a.2 < b.1) (canonLoop fuel l)) := by
  intro fuel
  induction fuel with
  | zero =>
    intro l hl hwf hsorted
    have : l = [] := List.length_eq_zero.mp (by omega)
    subst this
    simp [canonLoop]
  | succ fuel ih =>
    intro l hl hwf hsorted
    by_cases hlen : l.length < 2
    · simp only [canonLoop, if_pos hlen]
      exact ⟨hwf, hsorted, Or.inl hlen⟩
    · obtain ⟨prev, rest, rfl⟩ : ∃ prev rest, l = prev :: rest := by
        cases l with
        | nil => simp at hlen
        | cons a b => exact ⟨a, b, rfl⟩
      simp only [canonLoop, if_neg hlen]
      by_cases hch : (sweep prev rest).2 = true
      · simp only [hch, if_true]
        have hlen2 : (sweep prev rest).1.length ≤ fuel := by
          have := sweep_changed_length prev rest hch
          simp only [List.length_cons] at hl
          omega
        obtain ⟨i1, i2, i3⟩ := sweep_inv rest prev hwf hsorted
        exact ih (sweep prev rest).1 hlen2 i1 i2
      · rw [Bool.not_eq_true] at hch
        simp only [hch, Bool.false_eq_true, if_false]
        obtain ⟨h1, h2⟩ := sweep_unchanged prev rest hch
        obtain ⟨i1, i2, _⟩ := sweep_inv rest prev hwf hsorted
        exact ⟨i1, i2, Or.inr (h1 ▸ h2)⟩

theorem chain_gap_head (p : Int × Int) (l : List (Int × Int))
    (hwf : ∀ r ∈ l, r.1 ≤ r.2)
    (hch : List.Chain' (fun a b : Int × Int => a.2 < b.1) (p :: l)) :
    ∀ r ∈ l, p.2 < r.1 := by
  induction l generalizing p with
  | nil => simp
  | cons c rest ih =>
    rw [List.chain'_cons] at hch
    intro r hr
    rcases List.mem_cons.mp hr with rfl | hr
    · exact hch.1
    · have hcr : c.2 < r.1 := ih c (fun x hx => hwf x (by simp [hx])) hch.2 r hr
      have hc : c.1 ≤ c.2 := hwf c (by simp)
      omega

theorem gap_pairwise (l : List (Int × Int))
    (hwf : ∀ r ∈ l, r.1 ≤ r.2)
    (hch : List.Chain' (fun a b : Int × Int => a.2 < b.1) l) :
    List.Pairwise (fun a b : Int × Int => a.2 < b.1) l := by
  induction l with
  | nil => simp
  | cons p rest ih =>
    rw [List.pairwise_cons]
    constructor
    · exact chain_gap_head p rest (fun r hr => hwf r (by simp [hr])) hch
    · exact ih (fun r hr => hwf r (by simp [hr])) ((List.chain'_cons'.mp hch).2)

/-- C8 amended.  `canonical_ranges` is idempotent on every list of
well-formed ranges (`start ≤ end`); the counterexample shows idempotence
fails for ill-formed ranges whose end precedes their start. -/
theorem c8_canonicalize_idempotent_wf (l : List (Int × Int))
    (hwf : ∀ r ∈ l, r.1 ≤ r.2) :
    canonical_ranges (canonical_ranges l) = canonical_ranges l := by
  by_cases h2 : l.length < 2
  · have hinner : canonical_ranges l = l := by
      rw [canonical_ranges, if_pos h2]
    rw [hinner]
    exact hinner
  · have hout : canonical_ranges l = canonLoop l.length (List.insertionSort rangeLex l) := by
      rw [canonical_ranges, if_neg h2]
    have hperm := List.perm_insertionSort rangeLex l
    have hwfs : ∀ r ∈ List.insertionSort rangeLex l, r.1 ≤ r.2 := by
      intro r hr
      exact hwf r (hperm.mem_iff.mp hr)
    have hsorted : List.Pairwise rangeLex (List.insertionSort rangeLex l) :=
      List.sorted_insertionSort rangeLex l
    have hsorted' : List.Pairwise (fun a b : Int × Int => a.1 ≤ b.1)
        (List.insertionSort rangeLex l) := by
      refine hsorted.imp ?_
      intro a b hab
      rw [rangeLex] at hab
      omega
    have hlens : (List.insertionSort rangeLex l).length ≤ l.length := by
      rw [hperm.length_eq]
    obtain ⟨owf, osorted, ochain⟩ :=
      canonLoop_inv l.length (List.insertionSort rangeLex l) hlens hwfs hsorted'
    rw [← hout] at owf osorted ochain
    generalize hgen : canonical_ranges l = o at owf ochain ⊢
    rcases ochain with hshort | hchain
    · rw [canonical_ranges, if_pos hshort]
    · by_cases hoshort : o.length < 2
      · rw [canonical_ranges, if_pos hoshort]
      · rw [canonical_ranges, if_neg hoshort]
        have hpair := gap_pairwise o owf hchain
        have hlex : List.Pairwise rangeLex o := by
          refine List.Pairwise.imp_of_mem ?_ hpair
          intro a b ha hb hab
          have := owf a ha
          rw [rangeLex]
          omega
        have hsortfix : List.insertionSort rangeLex o = o :=
          List.Sorted.insertionSort_eq hlex
        rw [hsortfix]
        obtain ⟨p, rest, rfl⟩ : ∃ p rest, o = p :: rest := by
          cases o with
          | nil => simp at hoshort
          | cons a b => exact ⟨a, b, rfl⟩
        simp only [List.length_cons]
        simp only [canonLoop, if_neg hoshort]
        rw [sweep_nomerge p rest hchain]
        simp only [List.length_cons] at hoshort
        simp [if_neg hoshort]

/-- Witness for C8 amended at a concrete input. -/
theorem c8_canonicalize_idempotent_wf_witness :
    canonical_ranges (canonical_ranges [((0 : Int), (10 : Int)), (2, 3)]) =
      canonical_ranges [((0 : Int), (10 : Int)), (2, 3)] :=
  c8_canonicalize_idempotent_wf [((0 : Int), (10 : Int)), (2, 3)] (by decide)

/-! ### Lemmas about `safeSubstitute` (template rendering) -/

theorem ss_nil (table : List (List Char × List Char)) : safeSubstitute table [] = [] := by
  simp [safeSubstitute]

theorem ss_other (table : List (List Char × List Char)) (c : Char) (rest : List Char)
    (h : c ≠ '$') :
    safeSubstitute table (c :: rest) = c :: safeSubstitute table rest := by
  rw [safeSubstitute.eq_def]
  simp [h]

theorem ss_lit (table : List (List Char × List Char)) (s rest : List Char)
    (h : ∀ ch ∈ s, ch ≠ '$') :
    safeSubstitute table (s ++ rest) = s ++ safeSubstitute table rest := by
  induction s with
  | nil => simp
  | cons c cs ih =>
    rw [List.cons_append, ss_other table c (cs ++ rest) (h c (by simp)),
      ih (fun x hx => h x (by simp [hx])), List.cons_append]

theorem isIdStart_isIdChar {c : Char} (h : isIdStart c = true) : isIdChar c = true := by
  rw [isIdChar, h]
  rfl

theorem splitIdent_append (cs rest : List Char)
    (hcs : ∀ x ∈ cs, isIdChar x = true)
    (hrest : ∀ ch, rest.head? = some ch → isIdChar ch = false) :
    splitIdent (cs ++ rest) = (cs, rest) := by
  induction cs with
  | nil =>
    simp only [List.nil_append]
    cases rest with
    | nil => simp [splitIdent]
    | cons r rs =>
      have := hrest r rfl
      simp [splitIdent, this]
  | cons x xs ih =>
    have hx := hcs x (by simp)
    simp only [List.cons_append, splitIdent, hx, if_true]
    simp only [List.append_eq]
    rw [ih (fun y hy => hcs y (by simp [hy]))]

theorem splitIdentStart_append (n rest : List Char) (hn : validName n = true)
    (hrest : ∀ ch, rest.head? = some ch → isIdChar ch = false) :
    splitIdentStart (n ++ rest) = (n, rest) := by
  cases n with
  | nil => simp [validName] at hn
  | cons c cs =>
    simp only [validName, Bool.and_eq_true, List.all_eq_true] at hn
    obtain ⟨h1, h2⟩ := hn
    simp only [List.cons_append, splitIdentStart, h1, if_true]
    rw [splitIdent_append cs rest (fun x hx => h2 x hx) hrest]

theorem ss_named (table : List (List Char × List Char)) (n rest : List Char)
    (hn : validName n = true)
    (hrest : ∀ ch, rest.head? = some ch → isIdChar ch = false) :
    safeSubstitute table ('$' :: (n ++ rest)) =
      (tableGet table n).getD ('$' :: n) ++ safeSubstitute table rest := by
  obtain ⟨c, cs, rfl⟩ : ∃ c cs, n = c :: cs := by
    cases n with
    | nil => simp [validName] at hn
    | cons a b => exact ⟨a, b, rfl⟩
  have hstart : isIdStart c = true := by
    simp only [validName, Bool.and_eq_true] at hn
    exact hn.1
  have hcne : c ≠ '$' := by
    intro h
    rw [h] at hstart
    exact absurd hstart (by decide)
  have hcnb : c ≠ '{' := by
    intro h
    rw [h] at hstart
    exact absurd hstart (by decide)
  have hsplit : splitIdentStart (c :: (cs ++ rest)) = (c :: cs, rest) := by
    rw [← List.cons_append]
    exact splitIdentStart_append (c :: cs) rest hn hrest
  rw [safeSubstitute.eq_def]
  simp only [List.cons_append, if_pos rfl]
  simp [hcne, hcnb, hstart, hsplit]

theorem ss_braced (table : List (List Char × List Char)) (n rest : List Char)
    (hn : validName n = true) :
    safeSubstitute table ('$' :: '{' :: (n ++ ('}' :: rest))) =
      (tableGet table n).getD ('$' :: '{' :: (n ++ ['}'])) ++ safeSubstitute table rest := by
  have hne : n ≠ [] := by
    cases n with
    | nil => simp [validName] at hn
    | cons a b => simp
  have hsplit : splitIdentStart (n ++ ('}' :: rest)) = (n, '}' :: rest) :=
    splitIdentStart_append n ('}' :: rest) hn
      (by intro ch hch; simp at hch; rw [← hch]; decide)
  rw [safeSubstitute.eq_def]
  simp only [reduceIte]
  rw [if_neg (by decide : ¬ (('{' : Char) = '$'))]
  rw [if_neg (show ¬ ((splitIdentStart (n ++ ('}' :: rest))).1 = []) by
    rw [hsplit]
    simpa using hne)]
  split
  next rs2 heq =>
    rw [hsplit]
    rw [hsplit] at heq
    simp only [Prod.snd] at heq
    injection heq with h1 h2
    rw [h2]
  next heq =>
    have h3 : (splitIdentStart (n ++ ('}' :: rest))).2 = '}' :: rest := by rw [hsplit]
    exact absurd h3 (fun hc => heq rest hc)

theorem tmplSource_cons (seg : TmplSeg) (rest : List TmplSeg) :
    tmplSource (seg :: rest) = segSource seg ++ tmplSource rest := rfl

theorem tmplRender_cons (table : List (List Char × List Char)) (seg : TmplSeg)
    (rest : List TmplSeg) :
    tmplRender table (seg :: rest) = segRender table seg ++ tmplRender table rest := rfl

theorem tmplSource_head_not_idChar (segs : List TmplSeg)
    (hok : ∀ s ∈ segs, segOk s = true)
    (hpair : ∀ b ∈ segs.head?, ∀ s, b = TmplSeg.lit s → ∀ c ∈ s.head?, isIdChar c = false) :
    ∀ ch ∈ (tmplSource segs).head?, isIdChar ch = false := by
  cases segs with
  | nil => simp [tmplSource, catLists]
  | cons seg rest =>
    rw [tmplSource_cons]
    cases seg with
    | lit s =>
      have hs : s ≠ [] := by
        have := hok (TmplSeg.lit s) (by simp)
        simp only [segOk, Bool.and_eq_true, Bool.not_eq_true'] at this
        intro hnil
        rw [hnil] at this
        simp [List.isEmpty] at this
      obtain ⟨c0, cs0, rfl⟩ : ∃ c0 cs0, s = c0 :: cs0 := by
        cases s with
        | nil => exact absurd rfl hs
        | cons a b => exact ⟨a, b, rfl⟩
      intro ch hch
      simp only [segSource, List.cons_append, List.head?_cons, Option.mem_def,
        Option.some.injEq] at hch
      rw [← hch]
      exact hpair (TmplSeg.lit (c0 :: cs0)) (by simp) (c0 :: cs0) rfl c0 (by simp)
    | tok m =>
      intro ch hch
      simp only [segSource, List.cons_append, List.head?_cons, Option.mem_def,
        Option.some.injEq] at hch
      rw [← hch]
      decide
    | btok m =>
      intro ch hch
      simp only [segSource, List.cons_append, List.head?_cons, Option.mem_def,
        Option.some.injEq] at hch
      rw [← hch]
      decide

/-- C9 amended.  Over any resolved control-sequence table, `render`
substitutes each well-formed `$TOKEN`/`${TOKEN}` placeholder with the table
entry when the token name is a key of the table and leaves the placeholder
verbatim otherwise, never failing; and the dumb backend's resolved table
maps every supported token to the empty string. -/
theorem c9_render_spec :
    (∀ (table : List (List Char × List Char)) (segs : List TmplSeg),
      segsOk segs = true → terminal_render table (tmplSource segs) = tmplRender table segs) ∧
    (∀ e ∈ empty_control_sequences, e.2 = []) := by
  constructor
  · intro table segs hok
    rw [segsOk, Bool.and_eq_true, List.all_eq_true] at hok
    obtain ⟨hall, hsep⟩ := hok
    rw [terminal_render]
    induction segs with
    | nil => simp [tmplSource, tmplRender, catLists, ss_nil]
    | cons seg rest ih =>
      have hallrest : ∀ s ∈ rest, segOk s = true := fun s hs => hall s (by simp [hs])
      have hseprest : segsSepOk rest = true := by
        cases rest with
        | nil => rfl
        | cons b more =>
          rw [segsSepOk, Bool.and_eq_true] at hsep
          exact hsep.2
      have ihr := ih hallrest hseprest
      have hheadpair : ∀ b ∈ rest.head?, segPairOk seg b = true := by
        cases rest with
        | nil => simp
        | cons b more =>
          intro b' hb'
          simp only [List.head?_cons, Option.mem_def, Option.some.injEq] at hb'
          rw [← hb']
          rw [segsSepOk, Bool.and_eq_true] at hsep
          exact hsep.1
      rw [tmplSource_cons, tmplRender_cons]
      cases seg with
      | lit s =>
        have hs := hall (TmplSeg.lit s) (by simp)
        simp only [segOk, Bool.and_eq_true, List.all_eq_true] at hs
        have hnd : ∀ ch ∈ s, ch ≠ '$' := by
          intro ch hch
          have := hs.2 ch hch
          simpa using this
        rw [segSource, segRender, ss_lit table s _ hnd, ihr]
      | tok n =>
        have hn := hall (TmplSeg.tok n) (by simp)
        rw [segOk] at hn
        have hrest2 : ∀ ch ∈ (tmplSource rest).head?, isIdChar ch = false := by
          apply tmplSource_head_not_idChar rest hallrest
          intro b hb s hbs c hc
          have hp := hheadpair b hb
          rw [hbs] at hp
          cases s with
          | nil => simp at hc
          | cons c0 cs0 =>
            simp only [List.head?_cons, Option.mem_def, Option.some.injEq] at hc
            simp only [segPairOk] at hp
            rw [← hc]
            simpa using hp
        rw [segSource, segRender, List.cons_append,
          ss_named table n (tmplSource rest) hn
            (fun ch hch => hrest2 ch hch), ihr]
      | btok n =>
        have hn := hall (TmplSeg.btok n) (by simp)
        rw [segOk] at hn
        have hshape : ('$' :: '{' :: (n ++ ['}'])) ++ tmplSource rest =
            '$' :: '{' :: (n ++ ('}' :: tmplSource rest)) := by
          simp
        rw [segSource, segRender, hshape, ss_braced table n (tmplSource rest) hn, ihr]
  · intro e he
    rw [empty_control_sequences] at he
    simp only [List.mem_map] at he
    obtain ⟨k, _, hk⟩ := he
    rw [← hk]

/-- Witness for C9 amended: rendering `${BG_YELLOW}text${NORMAL}` against
the dumb backend's table yields `text`. -/
theorem c9_render_spec_witness :
    segsOk [TmplSeg.btok (("BG_YELLOW").toList), TmplSeg.lit (("text").toList),
      TmplSeg.btok (("NORMAL").toList)] = true ∧
    terminal_render empty_control_sequences
      (tmplSource [TmplSeg.btok (("BG_YELLOW").toList), TmplSeg.lit (("text").toList),
        TmplSeg.btok (("NORMAL").toList)]) =
    tmplRender empty_control_sequences
      [TmplSeg.btok (("BG_YELLOW").toList), TmplSeg.lit (("text").toList),
        TmplSeg.btok (("NORMAL").toList)] :=
  ⟨by decide,
   c9_render_spec.1 empty_control_sequences
     [TmplSeg.btok (("BG_YELLOW").toList), TmplSeg.lit (("text").toList),
       TmplSeg.btok (("NORMAL").toList)] (by decide)⟩

/-- C9 counterexample.  A placeholder whose name is not a key of the
resolved table is left in place verbatim by `safe_substitute`, not replaced
by the empty string: the dumb backend's table has no key `FOO`, and
`render("$FOO")` returns `"$FOO"`. -/
theorem c9_render_unknown_token_counterexample :
    terminal_render empty_control_sequences ('$' :: ("FOO").toList) =
      '$' :: ("FOO").toList ∧
    tableGet empty_control_sequences (("FOO").toList) = none ∧
    ('$' :: ("FOO").toList) ≠ [] := by
  have hfoo : tableGet empty_control_sequences (("FOO").toList) = none := by decide
  refine ⟨?_, hfoo, by decide⟩
  have h := ss_named empty_control_sequences (("FOO").toList) [] (by decide) (by simp)
  rw [terminal_render]
  rw [List.append_nil] at h
  rw [h, hfoo, ss_nil, Option.getD_none, List.append_nil]

/-! ### Lemmas about the substring index -/

theorem dictGet_nil (it : Item) : dictGet [] it = none := rfl

theorem dictGet_cons (e : Item × Int) (rest : List (Item × Int)) (it : Item) :
    dictGet (e :: rest) it = if e.1 = it then some e.2 else dictGet rest it := by
  by_cases h : e.1 = it
  · rw [dictGet, List.find?_cons_of_pos _ (by simpa using h), if_pos h]
    rfl
  · rw [dictGet, List.find?_cons_of_neg _ (by simpa using h), if_neg h]
    rfl

theorem dictGet_dictMinUpdate (d : List (Item × Int)) (k : Item) (v : Int) (it : Item) :
    dictGet (dictMinUpdate d k v) it =
      if it = k then some (min ((dictGet d k).getD 0) v) else dictGet d it := by
  induction d with
  | nil =>
    simp only [dictMinUpdate, dictGet_cons, dictGet_nil]
    by_cases h : it = k
    · rw [if_pos (h.symm), if_pos h]
      rfl
    · rw [if_neg (fun hc => h hc.symm), if_neg h]
  | cons e rest ih =>
    by_cases hek : e.1 = k
    · simp only [dictMinUpdate, if_pos hek]
      rw [dictGet_cons, dictGet_cons]
      by_cases hit : e.1 = it
      · have hitk : it = k := by rw [← hit, hek]
        rw [if_pos hit, if_pos hitk, if_pos hek]
        simp
      · have hitk : ¬ it = k := by
          rw [← hek]
          exact fun hc => hit hc.symm
        rw [if_neg hit, if_neg hitk, dictGet_cons, if_neg hit]
    · simp only [dictMinUpdate, if_neg hek]
      rw [dictGet_cons]
      by_cases hit : e.1 = it
      · have hitk : ¬ it = k := by
          rw [← hit]
          exact fun hc => hek hc
        rw [if_pos hit, if_neg hitk, dictGet_cons, if_pos hit]
      · rw [if_neg hit, ih, dictGet_cons]
        by_cases hitk : it = k
        · rw [if_pos hitk, if_pos hitk, if_neg hek]
        · rw [if_neg hitk, if_neg hitk, dictGet_cons, if_neg hit]

theorem dictGet_foldl_minUpdate (items : List Item) (v : Int) :
    ∀ (r0 : List (Item × Int)) (it : Item),
      dictGet (items.foldl (fun r x => dictMinUpdate r x v) r0) it =
        if it ∈ items then some (min ((dictGet r0 it).getD 0) v) else dictGet r0 it := by
  induction items with
  | nil => simp
  | cons a items ih =>
    intro r0 it
    rw [List.foldl_cons, ih]
    rw [dictGet_dictMinUpdate]
    by_cases hia : it = a
    · subst hia
      by_cases hmem : it ∈ items
      · simp only [hmem, if_true, if_pos rfl, List.mem_cons, true_or, Option.getD_some]
        rw [min_assoc, min_self]
      · simp [hmem, List.mem_cons]
    · by_cases hmem : it ∈ items
      · simp [hmem, hia, List.mem_cons]
      · simp [hmem, hia, List.mem_cons]

theorem dictGet_eq_none_iff (d : List (Item × Int)) (it : Item) :
    dictGet d it = none ↔ it ∉ d.map Prod.fst := by
  rw [dictGet, Option.map_eq_none', List.find?_eq_none]
  simp only [beq_iff_eq, List.mem_map]
  constructor
  · rintro h ⟨e, he, hfst⟩
    exact h e he hfst
  · intro h e he hfst
    exact h ⟨e, he, hfst⟩

theorem dictMinUpdate_keys (d : List (Item × Int)) (k : Item) (v : Int) :
    (dictMinUpdate d k v).map Prod.fst =
      if k ∈ d.map Prod.fst then d.map Prod.fst else d.map Prod.fst ++ [k] := by
  induction d with
  | nil => simp [dictMinUpdate]
  | cons e rest ih =>
    by_cases hek : e.1 = k
    · simp [dictMinUpdate, hek]
    · have : ¬ (k = e.1) := fun hc => hek hc.symm
      simp only [dictMinUpdate, if_neg hek, List.map_cons, List.mem_cons, this, false_or]
      rw [ih]
      by_cases hk : k ∈ rest.map Prod.fst
      · simp [hk]
      · simp [hk]

theorem dictMinUpdate_keys_nodup (d : List (Item × Int)) (k : Item) (v : Int)
    (h : (d.map Prod.fst).Nodup) : ((dictMinUpdate d k v).map Prod.fst).Nodup := by
  rw [dictMinUpdate_keys]
  by_cases hk : k ∈ d.map Prod.fst
  · simpa [hk] using h
  · simp only [hk, if_false]
    rw [← List.concat_eq_append]
    exact List.Nodup.concat hk h

theorem foldl_minUpdate_keys_nodup (items : List Item) (v : Int) :
    ∀ (r0 : List (Item × Int)), ((r0.map Prod.fst).Nodup) →
      (((items.foldl (fun r x => dictMinUpdate r x v) r0).map Prod.fst).Nodup) := by
  induction items with
  | nil => intro r0 h; simpa using h
  | cons a items ih =>
    intro r0 h
    rw [List.foldl_cons]
    exact ih _ (dictMinUpdate_keys_nodup r0 a v h)

theorem substring_score_items_get (m : List (List Char × List Item)) (q : List Char)
    (it : Item) :
    ∀ acc,
      dictGet
        (m.foldl
          (fun result e =>
            match pyFind q e.1 0 with
            | some idx => e.2.foldl (fun r x => dictMinUpdate r x (-(idx : Int))) result
            | none => result)
          acc) it =
      if subOffsets m q it = [] then dictGet acc it
      else
        some (List.foldl min ((dictGet acc it).getD 0)
          ((subOffsets m q it).map (fun i : Nat => -(i : Int)))) := by
  induction m with
  | nil => simp [subOffsets]
  | cons e rest ih =>
    intro acc
    rw [List.foldl_cons]
    cases hf : pyFind q e.1 0 with
    | none =>
      have hoff : subOffsets (e :: rest) q it = subOffsets rest q it := by
        rw [subOffsets, List.filterMap_cons]
        by_cases hmem : it ∈ e.2 <;> simp [hmem, hf, subOffsets]
      rw [hoff]
      exact ih acc
    | some idx =>
      by_cases hmem : it ∈ e.2
      · have hoff : subOffsets (e :: rest) q it = idx :: subOffsets rest q it := by
          rw [subOffsets, List.filterMap_cons]
          simp [hmem, hf, subOffsets]
        rw [hoff, ih]
        rw [dictGet_foldl_minUpdate e.2 (-(idx : Int)) acc it]
        simp only [hmem, if_true]
        by_cases hrest : subOffsets rest q it = []
        · simp [hrest]
        · simp only [hrest, if_false, List.cons_ne_nil, List.map_cons, List.foldl_cons,
            Option.getD_some]
      · have hoff : subOffsets (e :: rest) q it = subOffsets rest q it := by
          rw [subOffsets, List.filterMap_cons]
          simp [hmem, subOffsets]
        rw [hoff, ih]
        rw [dictGet_foldl_minUpdate e.2 (-(idx : Int)) acc it]
        simp [hmem]

theorem foldl_min_neg (ns : List Nat) :
    ∀ a : Nat,
      List.foldl min (-(a : Int)) (ns.map (fun i : Nat => -(i : Int))) =
        -(((ns.foldl max a : Nat) : Int)) := by
  induction ns with
  | nil => intro a; simp
  | cons n ns ih =>
    intro a
    rw [List.map_cons, List.foldl_cons, List.foldl_cons]
    have h1 : min (-(a : Int)) (-(n : Int)) = -(((max a n : Nat) : Int)) := by
      push_cast
      rw [min_neg_neg]
    rw [h1, ih (max a n)]

theorem substring_score_items_value (m : List (List Char × List Item)) (q : List Char)
    (it : Item) :
    dictGet (substring_score_items m q) it =
      if subOffsets m q it = [] then none
      else some (-((((subOffsets m q it).foldl max 0 : Nat)) : Int)) := by
  rw [substring_score_items, substring_score_items_get m q it []]
  by_cases h : subOffsets m q it = []
  · simp [h, dictGet]
  · simp only [h, if_false, dictGet, List.find?, Option.map_none', Option.getD_none]
    have := foldl_min_neg (subOffsets m q it) 0
    simp only [Nat.cast_zero, neg_zero] at this
    rw [this]

theorem substring_score_items_keys_nodup (m : List (List Char × List Item))
    (q : List Char) : ((substring_score_items m q).map Prod.fst).Nodup := by
  rw [substring_score_items]
  have : ∀ (acc : List (Item × Int)), (acc.map Prod.fst).Nodup →
      (((m.foldl
        (fun result e =>
          match pyFind q e.1 0 with
          | some idx => e.2.foldl (fun r x => dictMinUpdate r x (-(idx : Int))) result
          | none => result)
        acc).map Prod.fst).Nodup) := by
    induction m with
    | nil => intro acc h; simpa using h
    | cons e rest ih =>
      intro acc h
      rw [List.foldl_cons]
      cases hf : pyFind q e.1 0 with
      | none => exact ih acc h
      | some idx => exact ih _ (foldl_minUpdate_keys_nodup e.2 (-(idx : Int)) acc h)
  exact this [] (by simp)

theorem subOffsets_ne_nil_iff (m : List (List Char × List Item)) (q : List Char)
    (it : Item) :
    subOffsets m q it ≠ [] ↔ ∃ e ∈ m, it ∈ e.2 ∧ pyFind q e.1 0 ≠ none := by
  rw [subOffsets, Ne, List.filterMap_eq_nil_iff]
  push_neg
  constructor
  · rintro ⟨e, he, hne⟩
    by_cases hmem : it ∈ e.2
    · refine ⟨e, he, hmem, ?_⟩
      simpa [hmem] using hne
    · simp [hmem] at hne
  · rintro ⟨e, he, hmem, hfind⟩
    exact ⟨e, he, by simpa [hmem] using hfind⟩

theorem dictGet_of_mem_nodup (d : List (Item × Int)) (it : Item) (v : Int)
    (hnodup : (d.map Prod.fst).Nodup) (hmem : (it, v) ∈ d) :
    dictGet d it = some v := by
  induction d with
  | nil => simp at hmem
  | cons e rest ih =>
    rcases List.mem_cons.mp hmem with h | h
    · rw [← h]
      simp [dictGet, List.find?]
    · have hnr : (rest.map Prod.fst).Nodup := (List.nodup_cons.mp hnodup).2
      have hnotin : e.1 ∉ rest.map Prod.fst := (List.nodup_cons.mp hnodup).1
      have hne : ¬ e.1 = it := by
        intro hc
        apply hnotin
        rw [hc]
        exact List.mem_map.mpr ⟨(it, v), h, rfl⟩
      rw [dictGet_cons, if_neg hne]
      exact ih hnr h

/-- Everything C2, C3 and C10 need about `SubstringIndex.search`: one match
per item with a matching token, the cost of each match is the maximum
first-occurrence offset over the item's matching tokens (negated twice),
and the list is ascending in the stored score, i.e. descending in cost. -/
theorem substring_search_char (idx : SubstringIndex) (query : List Char) :
    ((substring_search idx query).map Match.matched_object).Nodup ∧
    (∀ it, it ∈ (substring_search idx query).map Match.matched_object ↔
      subOffsets idx.tokens_to_items (subProcQuery idx query) it ≠ []) ∧
    (∀ mm ∈ substring_search idx query,
      mm.score =
        ((((subOffsets idx.tokens_to_items (subProcQuery idx query)
          mm.matched_object).foldl max 0 : Nat)) : Int)) ∧
    List.Pairwise (fun a b => b.score ≤ a.score) (substring_search idx query) := by
  have hse : substring_search idx query =
      (List.insertionSort subScoreLE
        (substring_score_items idx.tokens_to_items (subProcQuery idx query))).map
        (fun e =>
          { matched_object := e.1
            matched_string := e.1
            score := -e.2
            substrings :=
              (each_index_of_string (subProcQuery idx query)
                (if idx.case_sensitive then e.1 else pyLowerStr e.1)).map
                (fun i => ((i : Int), (i : Int) + (subProcQuery idx query).length)) }) := rfl
  set q := subProcQuery idx query with hq
  set scored := substring_score_items idx.tokens_to_items q with hscored
  have hperm : (List.insertionSort subScoreLE scored).Perm scored :=
    List.perm_insertionSort subScoreLE scored
  have hkeysnodup : (scored.map Prod.fst).Nodup :=
    substring_score_items_keys_nodup idx.tokens_to_items q
  have hobj : ∀ it, it ∈ (substring_search idx query).map Match.matched_object ↔
      it ∈ scored.map Prod.fst := by
    intro it
    rw [hse]
    simp only [List.mem_map]
    constructor
    · rintro ⟨mm, ⟨e, he, rfl⟩, h2⟩
      exact ⟨e, hperm.mem_iff.mp he, h2⟩
    · rintro ⟨e, he, h⟩
      exact ⟨_, ⟨e, hperm.mem_iff.mpr he, rfl⟩, h⟩
  refine ⟨?_, ?_, ?_, ?_⟩
  · rw [hse, List.map_map]
    have : (Match.matched_object ∘ (fun e : Item × Int =>
        ({ matched_object := e.1
           matched_string := e.1
           score := -e.2
           substrings :=
             (each_index_of_string q
               (if idx.case_sensitive then e.1 else pyLowerStr e.1)).map
               (fun i => ((i : Int), (i : Int) + q.length)) } : Match))) = Prod.fst := rfl
    rw [this]
    exact ((hperm.map Prod.fst).nodup_iff).mpr hkeysnodup
  · intro it
    rw [hobj it]
    constructor
    · intro hmem
      intro hnil
      have : dictGet scored it = none := by
        rw [hscored, substring_score_items_value]
        simp [hnil]
      rw [dictGet_eq_none_iff] at this
      exact this hmem
    · intro hne
      by_contra hmem
      have : dictGet scored it = none := (dictGet_eq_none_iff scored it).mpr hmem
      rw [hscored, substring_score_items_value] at this
      simp [hne] at this
  · intro mm hmm
    rw [hse] at hmm
    obtain ⟨e, he, rfl⟩ := List.mem_map.mp hmm
    have hes : e ∈ scored := hperm.mem_iff.mp he
    have hget : dictGet scored e.1 = some e.2 := by
      have : (e.1, e.2) ∈ scored := by simpa using hes
      exact dictGet_of_mem_nodup scored e.1 e.2 hkeysnodup this
    rw [hscored, substring_score_items_value] at hget
    by_cases hnil : subOffsets idx.tokens_to_items q e.1 = []
    · rw [if_pos hnil] at hget
      exact absurd hget (by simp)
    · rw [if_neg hnil] at hget
      simp only [Option.some.injEq] at hget
      simp only [← hget, neg_neg]
  · rw [hse]
    rw [List.pairwise_map]
    have hsorted : List.Pairwise subScoreLE (List.insertionSort subScoreLE scored) :=
      List.sorted_insertionSort subScoreLE scored
    refine hsorted.imp ?_
    intro a b hab
    rw [subScoreLE] at hab
    simp only
    omega

/-- C2 amended.  For the substring strategy, the cost of the Match returned
for an item with at least one matching token is the MAXIMUM over the item's
matching tokens of the first-occurrence offset of the query (the claimed
minimum is refuted by the counterexample). -/
theorem c2_substring_cost_is_max (idx : SubstringIndex) (query : List Char) (it : Item)
    (h : subOffsets idx.tokens_to_items (subProcQuery idx query) it ≠ []) :
    (∃ mm ∈ substring_search idx query, mm.matched_object = it) ∧
    (∀ mm ∈ substring_search idx query, mm.matched_object = it →
      mm.score =
        ((((subOffsets idx.tokens_to_items (subProcQuery idx query) it).foldl max 0 :
          Nat)) : Int)) := by
  obtain ⟨hnodup, hmem, hscore, hsort⟩ := substring_search_char idx query
  constructor
  · have := (hmem it).mpr h
    obtain ⟨mm, hmm, hobj⟩ := List.mem_map.mp this
    exact ⟨mm, hmm, hobj⟩
  · intro mm hmm hobj
    have := hscore mm hmm
    rw [hobj] at this
    exact this

/-- Witness for C2 amended at a concrete input: item `"x"` with tokens
`"ab"` and `"xab"`, query `"ab"`. -/
theorem c2_substring_cost_is_max_witness :
    subOffsets [(['a', 'b'], [['x']]), (['x', 'a', 'b'], [['x']])] ['a', 'b'] ['x'] ≠ [] ∧
    (∃ mm ∈ substring_search
        ⟨true, [(['a', 'b'], [['x']]), (['x', 'a', 'b'], [['x']])]⟩ ['a', 'b'],
      mm.matched_object = ['x']) :=
  ⟨by decide,
   (c2_substring_cost_is_max
     ⟨true, [(['a', 'b'], [['x']]), (['x', 'a', 'b'], [['x']])]⟩ ['a', 'b'] ['x']
     (by decide)).1⟩

/-- C10.  Searching a non-empty `SubstringIndex` with the empty query
returns exactly one Match per distinct indexed item, each with cost 0:
every token contains the empty string at offset 0. -/
theorem c10_empty_query_matches_all (idx : SubstringIndex)
    (h : ∃ e ∈ idx.tokens_to_items, e.2 ≠ []) :
    substring_search idx [] ≠ [] ∧
    (∀ mm ∈ substring_search idx [], mm.score = 0) ∧
    ((substring_search idx []).map Match.matched_object).Nodup ∧
    (∀ it, it ∈ (substring_search idx []).map Match.matched_object ↔
      ∃ e ∈ idx.tokens_to_items, it ∈ e.2) := by
  have hq : subProcQuery idx [] = [] := by
    rw [subProcQuery]
    split <;> rfl
  obtain ⟨hnodup, hmem, hscore, hsort⟩ := substring_search_char idx []
  rw [hq] at hmem hscore
  have hfind : ∀ t : List Char, pyFind [] t 0 = some 0 := by
    intro t
    rw [pyFind_nil_needle]
    simp
  have hoffmem : ∀ it, subOffsets idx.tokens_to_items [] it ≠ [] ↔
      ∃ e ∈ idx.tokens_to_items, it ∈ e.2 := by
    intro it
    rw [subOffsets_ne_nil_iff]
    constructor
    · rintro ⟨e, he, hmm, _⟩
      exact ⟨e, he, hmm⟩
    · rintro ⟨e, he, hmm⟩
      exact ⟨e, he, hmm, by rw [hfind]; simp⟩
  have hoffzero : ∀ it, ∀ x ∈ subOffsets idx.tokens_to_items [] it, x = 0 := by
    intro it x hx
    rw [subOffsets] at hx
    obtain ⟨e, he, hfe⟩ := List.mem_filterMap.mp hx
    by_cases hmm : it ∈ e.2
    · rw [if_pos hmm, hfind] at hfe
      exact (Option.some.injEq _ _).mp hfe |>.symm
    · rw [if_neg hmm] at hfe
      exact absurd hfe (by simp)
  have hfoldzero : ∀ (ns : List Nat), (∀ x ∈ ns, x = 0) → ns.foldl max 0 = 0 := by
    intro ns
    induction ns with
    | nil => intro _; rfl
    | cons n ns ih =>
      intro hz
      rw [List.foldl_cons]
      have hn : n = 0 := hz n (by simp)
      rw [hn]
      exact ih (fun x hx => hz x (by simp [hx]))
  refine ⟨?_, ?_, hnodup, ?_⟩
  · obtain ⟨e, he, hne⟩ := h
    obtain ⟨it, hit⟩ : ∃ it, it ∈ e.2 := by
      cases hee : e.2 with
      | nil => exact absurd hee hne
      | cons a b => exact ⟨a, by simp [hee]⟩
    have : it ∈ (substring_search idx []).map Match.matched_object := by
      rw [hmem it, hoffmem it]
      exact ⟨e, he, hit⟩
    intro hcontra
    rw [hcontra] at this
    simp at this
  · intro mm hmm
    rw [hscore mm hmm, hfoldzero _ (hoffzero mm.matched_object)]
    rfl
  · intro it
    rw [hmem it, hoffmem it]

/-- Witness for C10 at a concrete index. -/
theorem c10_empty_query_matches_all_witness :
    (∃ e ∈ ([(['a'], [['a']])] : List (List Char × List Item)), e.2 ≠ []) ∧
    substring_search ⟨true, [(['a'], [['a']])]⟩ [] ≠ [] :=
  ⟨⟨(['a'], [['a']]), by decide, by decide⟩,
   (c10_empty_query_matches_all ⟨true, [(['a'], [['a']])]⟩
     ⟨(['a'], [['a']]), by decide, by decide⟩).1⟩

/-! ### Lemmas about the fuzzy index -/

theorem fdictGet_cons (e : Item × (Int × (Nat × Nat)))
    (rest : List (Item × (Int × (Nat × Nat)))) (it : Item) :
    fdictGet (e :: rest) it = if e.1 = it then some e.2 else fdictGet rest it := by
  by_cases h : e.1 = it
  · rw [fdictGet, List.find?_cons_of_pos _ (by simpa using h), if_pos h]
    rfl
  · rw [fdictGet, List.find?_cons_of_neg _ (by simpa using h), if_neg h]
    rfl

theorem fdictGet_eq_none_iff (d : List (Item × (Int × (Nat × Nat)))) (it : Item) :
    fdictGet d it = none ↔ it ∉ d.map Prod.fst := by
  rw [fdictGet, Option.map_eq_none', List.find?_eq_none]
  simp only [beq_iff_eq, List.mem_map]
  constructor
  · rintro h ⟨e, he, hfst⟩
    exact h e he hfst
  · intro h e he hfst
    exact h ⟨e, he, hfst⟩

theorem fdictSet_keys (d : List (Item × (Int × (Nat × Nat)))) (k : Item)
    (v : Int × (Nat × Nat)) : (fdictSet d k v).map Prod.fst = d.map Prod.fst := by
  induction d with
  | nil => rfl
  | cons e rest ih =>
    by_cases h : e.1 = k
    · simp [fdictSet, h]
    · simp [fdictSet, h, ih]

theorem fuzzyUpdate_keys (d : List (Item × (Int × (Nat × Nat)))) (k : Item)
    (v : Int × (Nat × Nat)) :
    (fuzzyUpdate d k v).map Prod.fst =
      if k ∈ d.map Prod.fst then d.map Prod.fst else d.map Prod.fst ++ [k] := by
  rw [fuzzyUpdate]
  cases hg : fdictGet d k with
  | none =>
    have := (fdictGet_eq_none_iff d k).mp hg
    simp [this]
  | some old =>
    have hk : k ∈ d.map Prod.fst := by
      by_contra hc
      rw [(fdictGet_eq_none_iff d k).mpr hc] at hg
      exact absurd hg (by simp)
    by_cases hlt : old.1 < v.1
    · simp [hlt, fdictSet_keys, hk]
    · simp [hlt, hk]

theorem fuzzyUpdate_keys_nodup (d : List (Item × (Int × (Nat × Nat)))) (k : Item)
    (v : Int × (Nat × Nat)) (h : (d.map Prod.fst).Nodup) :
    ((fuzzyUpdate d k v).map Prod.fst).Nodup := by
  rw [fuzzyUpdate_keys]
  by_cases hk : k ∈ d.map Prod.fst
  · simpa [hk] using h
  · simp only [hk, if_false]
    rw [← List.concat_eq_append]
    exact List.Nodup.concat hk h

theorem fuzzyUpdate_keys_mem (d : List (Item × (Int × (Nat × Nat)))) (k : Item)
    (v : Int × (Nat × Nat)) (it : Item) :
    (it ∈ (fuzzyUpdate d k v).map Prod.fst ↔ it ∈ d.map Prod.fst ∨ it = k) := by
  rw [fuzzyUpdate_keys]
  by_cases hk : k ∈ d.map Prod.fst
  · rw [if_pos hk]
    constructor
    · exact fun h => Or.inl h
    · rintro (h | rfl)
      · exact h
      · exact hk
  · rw [if_neg hk]
    simp

theorem foldl_fuzzyUpdate_keys_mem (items : List Item) (v : Int × (Nat × Nat)) :
    ∀ (r0 : List (Item × (Int × (Nat × Nat)))) (it : Item),
      (it ∈ ((items.foldl (fun r x => fuzzyUpdate r x v) r0).map Prod.fst) ↔
        it ∈ r0.map Prod.fst ∨ it ∈ items) := by
  induction items with
  | nil => simp
  | cons a items ih =>
    intro r0 it
    rw [List.foldl_cons, ih, fuzzyUpdate_keys_mem]
    simp only [List.mem_cons]
    tauto

theorem foldl_fuzzyUpdate_keys_nodup (items : List Item) (v : Int × (Nat × Nat)) :
    ∀ (r0 : List (Item × (Int × (Nat × Nat)))),
      (r0.map Prod.fst).Nodup →
      (((items.foldl (fun r x => fuzzyUpdate r x v) r0).map Prod.fst).Nodup) := by
  induction items with
  | nil => intro r0 h; simpa using h
  | cons a items ih =>
    intro r0 h
    rw [List.foldl_cons]
    exact ih _ (fuzzyUpdate_keys_nodup r0 a v h)

theorem fuzzyScoreItemsLoop_ok (pq : Option Char × List Char) :
    ∀ (m : List (List Char × List Item)) (acc d : List (Item × (Int × (Nat × Nat)))),
      fuzzyScoreItemsLoop pq m acc = .ok d →
      (∀ it, it ∈ d.map Prod.fst ↔ it ∈ acc.map Prod.fst ∨
        ∃ e ∈ m, it ∈ e.2 ∧ ∃ v, fuzzy_score_token e.1 pq = .ok (some v)) ∧
      ((acc.map Prod.fst).Nodup → (d.map Prod.fst).Nodup) := by
  intro m
  induction m with
  | nil =>
    intro acc d h
    rw [fuzzyScoreItemsLoop] at h
    simp only [Except.ok.injEq] at h
    subst h
    simp
  | cons e rest ih =>
    intro acc d h
    rw [fuzzyScoreItemsLoop] at h
    cases hst : fuzzy_score_token e.1 pq with
    | error err => rw [hst] at h; exact absurd h (by simp)
    | ok r =>
      rw [hst] at h
      cases r with
      | none =>
        obtain ⟨hm, hn⟩ := ih acc d h
        refine ⟨?_, hn⟩
        intro it
        rw [hm it]
        simp only [List.mem_cons]
        constructor
        · rintro (h1 | ⟨e', he', hit, v, hv⟩)
          · exact Or.inl h1
          · exact Or.inr ⟨e', Or.inr he', hit, v, hv⟩
        · rintro (h1 | ⟨e', he' | he', hit, v, hv⟩)
          · exact Or.inl h1
          · rw [he'] at hv
            rw [hst] at hv
            simp at hv
          · exact Or.inr ⟨e', he', hit, v, hv⟩
      | some v0 =>
        obtain ⟨hm, hn⟩ := ih _ d h
        refine ⟨?_, ?_⟩
        · intro it
          rw [hm it, foldl_fuzzyUpdate_keys_mem]
          simp only [List.mem_cons]
          constructor
          · rintro ((h1 | h1) | ⟨e', he', hit, v, hv⟩)
            · exact Or.inl h1
            · exact Or.inr ⟨e, Or.inl rfl, h1, v0, hst⟩
            · exact Or.inr ⟨e', Or.inr he', hit, v, hv⟩
          · rintro (h1 | ⟨e', he' | he', hit, v, hv⟩)
            · exact Or.inl (Or.inl h1)
            · rw [he'] at hit
              exact Or.inl (Or.inr hit)
            · exact Or.inr ⟨e', he', hit, v, hv⟩
        · intro hnodup
          exact hn (foldl_fuzzyUpdate_keys_nodup e.2 v0 acc hnodup)

theorem fuzzyCreateLoop_ok (pq : Option Char × List Char) :
    ∀ (l : List (Item × (Int × (Nat × Nat)))) (res : List Match),
      fuzzyCreateLoop pq l = .ok res →
      res.map Match.matched_object = l.map Prod.fst ∧
      res.map Match.score = l.map (fun e => e.2.1) := by
  intro l
  induction l with
  | nil =>
    intro res h
    rw [fuzzyCreateLoop] at h
    simp only [Except.ok.injEq] at h
    subst h
    simp
  | cons e rest ih =>
    intro res h
    rw [fuzzyCreateLoop] at h
    cases hst : fuzzy_score_token (pyLowerStr e.1) pq with
    | error err => rw [hst] at h; exact absurd h (by simp)
    | ok r =>
      rw [hst] at h
      cases hrec : fuzzyCreateLoop pq rest with
      | error err => rw [hrec] at h; exact absurd h (by simp)
      | ok ms =>
        rw [hrec] at h
        simp only [Except.ok.injEq] at h
        obtain ⟨h1, h2⟩ := ih ms hrec
        subst h
        simp [h1, h2]

/-- C3 amended.  Both strategies return exactly one Match per item with at
least one matching token.  The list is sorted ascending by the stored
internal score: for the substring strategy that is the negated offset, so
Match costs appear in descending order, and for the fuzzy strategy (when
search returns normally) costs appear in ascending order.  No display-string
tie-break exists. -/
theorem c3_search_result_shape :
    (∀ (idx : SubstringIndex) (query : List Char),
      ((substring_search idx query).map Match.matched_object).Nodup ∧
      (∀ it, it ∈ (substring_search idx query).map Match.matched_object ↔
        ∃ e ∈ idx.tokens_to_items, it ∈ e.2 ∧
          pyFind (subProcQuery idx query) e.1 0 ≠ none) ∧
      List.Pairwise (fun a b => b.score ≤ a.score) (substring_search idx query)) ∧
    (∀ (idx : FuzzyIndex) (query : List Char) (res : List Match),
      fuzzy_search idx query = .ok res →
      (res.map Match.matched_object).Nodup ∧
      (∀ it, it ∈ res.map Match.matched_object ↔
        ∃ e ∈ idx.tokens_to_items, it ∈ e.2 ∧
          ∃ v, fuzzy_score_token e.1 (fuzzy_prepare_query query) = .ok (some v)) ∧
      List.Pairwise (fun a b => a.score ≤ b.score) res) := by
  constructor
  · intro idx query
    obtain ⟨hnodup, hmem, _, hsort⟩ := substring_search_char idx query
    refine ⟨hnodup, ?_, hsort⟩
    intro it
    rw [hmem it, subOffsets_ne_nil_iff]
  · intro idx query res h
    rw [fuzzy_search] at h
    cases hsi : fuzzy_score_items idx.tokens_to_items (fuzzy_prepare_query query) with
    | error err => rw [hsi] at h; exact absurd h (by simp)
    | ok d =>
      rw [hsi] at h
      have h' : fuzzyCreateLoop (fuzzy_prepare_query query)
          (List.insertionSort fuzzyValLE d) = .ok res := h
      obtain ⟨hobj, hscores⟩ :=
        fuzzyCreateLoop_ok (fuzzy_prepare_query query)
          (List.insertionSort fuzzyValLE d) res h'
      rw [fuzzy_score_items] at hsi
      obtain ⟨hdm, hdn⟩ :=
        fuzzyScoreItemsLoop_ok (fuzzy_prepare_query query) idx.tokens_to_items [] d hsi
      have hperm : (List.insertionSort fuzzyValLE d).Perm d :=
        List.perm_insertionSort fuzzyValLE d
      have hdnodup : (d.map Prod.fst).Nodup := hdn (by simp)
      refine ⟨?_, ?_, ?_⟩
      · rw [hobj]
        exact ((hperm.map Prod.fst).nodup_iff).mpr hdnodup
      · intro it
        rw [hobj]
        have : it ∈ (List.insertionSort fuzzyValLE d).map Prod.fst ↔
            it ∈ d.map Prod.fst := (hperm.map Prod.fst).mem_iff
        rw [this, hdm it]
        simp
      · have hpair : List.Pairwise (fun a b : Item × (Int × (Nat × Nat)) =>
            a.2.1 ≤ b.2.1) (List.insertionSort fuzzyValLE d) := by
          refine (List.sorted_insertionSort fuzzyValLE d).imp ?_
          intro a b hab
          rw [fuzzyValLE] at hab
          omega
        have h1 : List.Pairwise (fun a b : Int => a ≤ b) (res.map Match.score) := by
          rw [hscores, List.pairwise_map]
          exact hpair
        rw [List.pairwise_map] at h1
        exact h1

/-- Witness for C3 amended at a concrete fuzzy index and query. -/
theorem c3_search_result_shape_witness :
    fuzzy_search ⟨[(['a', 'b'], [['a', 'b']])]⟩ ['a', 'b'] =
      .ok [⟨['a', 'b'], ['a', 'b'], 2, [(0, 2)]⟩] ∧
    (([⟨['a', 'b'], ['a', 'b'], 2, [(0, 2)]⟩] : List Match).map
      Match.matched_object).Nodup :=
  ⟨rfl,
   (c3_search_result_shape.2 ⟨[(['a', 'b'], [['a', 'b']])]⟩ ['a', 'b']
     [⟨['a', 'b'], ['a', 'b'], 2, [(0, 2)]⟩] rfl).1⟩

end Selecta
